import Mathlib

/-!
Verification of the resilient chunked audio generation and assembly engine of
the blog-cloudflare-listen repository.

Shallow embedding conventions:
* Strings are `List Char`; audio byte buffers are `List Nat` (`Bytes`).
* The R2 bucket is a record of the three key families this subsystem uses
  (`blogs/{slug}/audio.mp3`, `blogs/{slug}/audio-metadata.json`,
  `blogs/{slug}/audio-chunk-{i}.mp3`).  A read from the bucket is modelled by
  `GetResult`: the underlying promise may reject (`throwErr`), the key may be
  absent (`absent`), or present (`found`).  The metadata blob additionally
  carries `Option AudioChunkMetadata`: `none` models a stored blob on which
  `JSON.parse` throws.
* The external synthesis model (`env.AI.run` + `validateAudioResponse` +
  the two storage writes inside the per-chunk `try`) is an oracle
  `synth : Nat → List Char → Option Bytes`; `none` models any failure inside
  the per-chunk `try` block before `updateChunkMetadata`.
* Concurrent batch dispatch (`Promise.allSettled` over the chunk promises) is
  modelled by its sequential linearization `processBatch`; each chunk promise
  is fully wrapped in its own `try`/`catch`, which the model reflects by
  `processChunk` being total.
* The `lastUpdated` timestamp field (purely diagnostic) is elided.
-/

namespace BlogAudio

abbrev Bytes := List Nat

/-- Terminal sentence punctuation of the split regex `/[^.!?]+[.!?]+/g`. -/
def terminalChar (c : Char) : Bool :=
  c = '.' || c = '!' || c = '?'

/-- Whitespace characters removed by JavaScript `String.prototype.trim`
(the common ones occurring in article text). -/
def isWs (c : Char) : Bool :=
  c = ' ' || c = '\t' || c = '\n' || c = '\r'

/-- Drop leading and trailing whitespace, as JavaScript `trim()`. -/
def trimWs (l : List Char) : List Char :=
  ((l.dropWhile isWs).reverse.dropWhile isWs).reverse

/-- Erase every whitespace character: the "up to whitespace" comparison. -/
def stripWs (l : List Char) : List Char :=
  l.filter (fun c => !isWs c)

/-- Scanner state of the global regex `/[^.!?]+[.!?]+/g`: either collecting
the non-terminal body of the next potential match, or extending the terminal
punctuation run that closes it. -/
inductive ScanState where
  | body (cur : List Char)
  | punct (b : List Char) (p : List Char)
deriving DecidableEq

/-- One left-to-right pass of the regex engine over the remaining characters.
A leading run of terminal characters (empty body) is skipped; a trailing body
that never meets a terminal character is not a match and is dropped. -/
def sentStep : List Char → ScanState → List (List Char)
  | [], .body _ => []
  | [], .punct b p => [b ++ p]
  | c :: rest, .body cur =>
    if terminalChar c then
      if cur.isEmpty then sentStep rest (.body [])
      else sentStep rest (.punct cur [c])
    else sentStep rest (.body (cur ++ [c]))
  | c :: rest, .punct b p =>
    if terminalChar c then sentStep rest (.punct b (p ++ [c]))
    else (b ++ p) :: sentStep rest (.body [c])

/-- All matches of `/[^.!?]+[.!?]+/g` in the text, in order. -/
def sentScan (t : List Char) : List (List Char) :=
  sentStep t (.body [])

/-- `text.match(/[^.!?]+[.!?]+/g) || [text]` — the sentence list used by
`splitTextIntoChunks`; `match` yields `null` exactly when there is no match,
in which case the whole text is the single sentence. -/
def matchSentences (t : List Char) : List (List Char) :=
  let m := sentScan t
  if m.isEmpty then [t] else m

/-- `MAX_CHUNK_SIZE` from `workers-ai.ts` ("Reduced limit for better
reliability"). -/
def MAX_CHUNK_SIZE : Nat := 1250

/-- The greedy accumulation loop of `splitTextIntoChunks`: grow
`currentChunk` while appending the next sentence stays within
`MAX_CHUNK_SIZE`, otherwise push the trimmed accumulated chunk (skipping the
push when it is empty, i.e. falsy) and restart from the sentence. -/
def chunkLoop : List Char → List (List Char) → List (List Char)
  | cur, [] => if cur.isEmpty then [] else [trimWs cur]
  | cur, sent :: rest =>
    if (cur ++ sent).length ≤ MAX_CHUNK_SIZE then chunkLoop (cur ++ sent) rest
    else if cur.isEmpty then chunkLoop sent rest
    else trimWs cur :: chunkLoop sent rest

/-- `splitTextIntoChunks` from `workers-ai.ts`. -/
def splitTextIntoChunks (t : List Char) : List (List Char) :=
  chunkLoop [] (matchSentences t)

example : splitTextIntoChunks "Hi there. Bye!".toList = ["Hi there. Bye!".toList] := by decide
example : sentScan "a. b".toList = [['a', '.']] := by decide
example : splitTextIntoChunks "a. b".toList = [['a', '.']] := by decide

/-! ## Storage model (`audio-chunk-manager.ts`) -/

/-- Outcome of one `bucket.get`: the awaited promise may reject, the key may
be absent (a `null` result), or the object is found. -/
inductive GetResult (α : Type) where
  | throwErr : GetResult α
  | absent : GetResult α
  | found : α → GetResult α
deriving DecidableEq

/-- `AudioChunkMetadata` (the `lastUpdated` timestamp, diagnostic only, is
elided).  `chunkSizes` entries are `Option Nat`: `none` models a JSON `null`
hole left by an out-of-range JavaScript array assignment. -/
structure AudioChunkMetadata where
  totalChunks : Nat
  completedChunks : List Nat
  chunkSizes : List (Option Nat)
  textChunks : List (List Char)
deriving DecidableEq

/-- The three key families of one article's namespace in the R2 bucket:
`audio.mp3`, `audio-metadata.json` and `audio-chunk-{i}.mp3`.  The metadata
payload's inner `Option` is `none` when the stored blob does not parse as
JSON (`JSON.parse` throws). -/
@[ext]
structure Bucket where
  complete : GetResult Bytes
  metadata : GetResult (Option AudioChunkMetadata)
  chunk : Nat → GetResult Bytes

/-- `AudioChunkStatus` (`availableAudio` is the optional assembled prefix). -/
structure AudioChunkStatus where
  isComplete : Bool
  availableChunks : List Nat
  missingChunks : List Nat
  totalChunks : Nat
  availableAudio : Option Bytes
deriving DecidableEq

/-- `combineAudioChunks`: plain byte concatenation. -/
def combineAudioChunks (audioChunks : List Bytes) : Bytes :=
  audioChunks.flatten

/-- The `for (let i = 0; i < metadata.totalChunks; i++)` read loop of
`getAudioChunkStatus`: for each index record the fetched buffer (position
`i` of the sparse `availableChunkBuffers` array) and push absent indices
onto `missingChunks`; a rejected read aborts into the surrounding `catch`. -/
def scanChunks (b : Bucket) : List Nat → Except Unit (List (Option Bytes) × List Nat)
  | [] => .ok ([], [])
  | i :: rest =>
    match b.chunk i with
    | .throwErr => .error ()
    | .absent =>
      match scanChunks b rest with
      | .error _ => .error ()
      | .ok (bufs, miss) => .ok (none :: bufs, i :: miss)
    | .found bs =>
      match scanChunks b rest with
      | .error _ => .error ()
      | .ok (bufs, miss) => .ok (some bs :: bufs, miss)

/-- The tail of `getAudioChunkStatus` after the chunk read loop: filter
`completedChunks` by what is actually in storage, assemble only the
contiguous run of buffers from index 0 (stopping at the first gap), and
report the counts. -/
def assembleStatus (md : AudioChunkMetadata) (bufs : List (Option Bytes))
    (miss : List Nat) : AudioChunkStatus :=
  let availableChunks := md.completedChunks.filter (fun c => !miss.contains c)
  let availableAudio : Option Bytes :=
    if availableChunks.isEmpty then none
    else
      let contiguous := (bufs.takeWhile Option.isSome).reduceOption
      if contiguous.isEmpty then none
      else some (combineAudioChunks contiguous)
  ⟨miss.isEmpty, availableChunks, miss, md.totalChunks, availableAudio⟩

/-- Body of `getAudioChunkStatus` up to its `catch`: complete-audio check,
metadata fetch and parse, chunk scan, and contiguous-prefix assembly. -/
def getAudioChunkStatusE (b : Bucket) : Except Unit AudioChunkStatus :=
  match b.complete with
  | .throwErr => .error ()
  | .found bytes =>
    .ok ⟨true, [], [], 1, some bytes⟩
  | .absent =>
    match b.metadata with
    | .throwErr => .error ()
    | .absent => .ok ⟨false, [], [], 0, none⟩
    | .found none => .error ()
    | .found (some md) =>
      match scanChunks b (List.range md.totalChunks) with
      | .error _ => .error ()
      | .ok (bufs, miss) => .ok (assembleStatus md bufs miss)

/-- `getAudioChunkStatus`: the `catch` arm maps any storage or parse error to
the same shape as the never-started case. -/
def getAudioChunkStatus (b : Bucket) : AudioChunkStatus :=
  match getAudioChunkStatusE b with
  | .ok s => s
  | .error _ => ⟨false, [], [], 0, none⟩

/-- `storeAudioMetadata`: overwrite `audio-metadata.json`. -/
def storeAudioMetadata (b : Bucket) (md : AudioChunkMetadata) : Bucket :=
  { b with metadata := .found (some md) }

/-- `storeAudioChunk`: overwrite `audio-chunk-{i}.mp3`. -/
def storeAudioChunk (b : Bucket) (chunkIndex : Nat) (audioBuffer : Bytes) : Bucket :=
  { b with chunk := fun j => if j = chunkIndex then .found audioBuffer else b.chunk j }

/-- JavaScript array assignment `a[i] = v` on a JSON-round-tripped array:
in-range indices are overwritten, out-of-range assignment pads with holes
(JSON `null`, modelled as `none`). -/
def setChunkSize (l : List (Option Nat)) (i : Nat) (v : Nat) : List (Option Nat) :=
  if i < l.length then l.set i v
  else l ++ List.replicate (i - l.length) none ++ [some v]

/-- The metadata mutation of `updateChunkMetadata`: push the index unless
already present, keep the list numerically sorted, record the size. -/
def updMeta (md : AudioChunkMetadata) (chunkIndex chunkSize : Nat) : AudioChunkMetadata :=
  { md with
    completedChunks :=
      if chunkIndex ∈ md.completedChunks then md.completedChunks
      else (md.completedChunks ++ [chunkIndex]).insertionSort (· ≤ ·)
    chunkSizes := setChunkSize md.chunkSizes chunkIndex chunkSize }

/-- `updateChunkMetadata`: read-modify-write of the metadata record; throws
(`Audio metadata not found`, a rejected read, or a `JSON.parse` failure)
when no parseable record exists. -/
def updateChunkMetadataE (b : Bucket) (chunkIndex chunkSize : Nat) :
    Except Unit (Bucket × AudioChunkMetadata) :=
  match b.metadata with
  | .found (some md) =>
    let md' := updMeta md chunkIndex chunkSize
    .ok (storeAudioMetadata b md', md')
  | _ => .error ()

/-- `getAudioMetadata`: its own `try`/`catch` turns a rejected read or parse
failure into `null`. -/
def getAudioMetadata (b : Bucket) : Option AudioChunkMetadata :=
  match b.metadata with
  | .found (some md) => some md
  | _ => none

/-- `storeCompleteAudio`: write `audio.mp3`, then (best effort) delete every
chunk artifact below `totalChunks` and the metadata record; when no parseable
metadata exists the cleanup is skipped.  (The metadata read happens after the
complete-audio write in the source, but that write does not affect the
metadata key, so the read is taken from `b` directly.) -/
def storeCompleteAudio (b : Bucket) (completeAudio : Bytes) : Bucket :=
  match getAudioMetadata b with
  | none => { b with complete := .found completeAudio }
  | some md =>
    { complete := .found completeAudio
      metadata := .absent
      chunk := fun i => if i < md.totalChunks then .absent else b.chunk i }

/-- `initializeAudioMetadata`: build a fresh record for the split and store
it, with no existence or consistency check. -/
def initializeAudioMetadata (b : Bucket) (textChunks : List (List Char)) :
    Bucket × AudioChunkMetadata :=
  let md : AudioChunkMetadata :=
    { totalChunks := textChunks.length
      completedChunks := []
      chunkSizes := List.replicate textChunks.length (some 0)
      textChunks := textChunks }
  (storeAudioMetadata b md, md)

/-! ## Orchestrator (`generateAudioResilient` in `workers-ai.ts`) -/

/-- The per-chunk oracle for the external model: `synth i text` is the byte
buffer produced for chunk `i`, or `none` when anything inside the per-chunk
`try` fails before the metadata update (`env.AI.run` rejection, response
validation failure, a failed `storeAudioChunk` put, a timeout…). -/
abbrev SynthOracle := Nat → List Char → Option Bytes

/-- The settled outcome of one chunk promise, as collected by
`Promise.allSettled`; `sentText` instruments the text argument actually
passed to `env.AI.run` (`none` when no synthesis call was made). -/
structure ChunkResult where
  chunkIndex : Nat
  success : Bool
  audio : Option Bytes
  sentText : Option (List Char)
deriving DecidableEq

/-- The chunk text handed to the synthesis call for index `i`, if any:
`textChunks[chunkIndex]` must exist and be truthy (non-empty). -/
def attemptedText (tcs : List (List Char)) (i : Nat) : Option (List Char) :=
  match tcs.get? i with
  | none => none
  | some ct => if ct.isEmpty then none else some ct

/-- The bytes the per-chunk pipeline would produce for index `i` (bucket
independent): text lookup, truthiness check, synthesis. -/
def chunkAttempt (synth : SynthOracle) (tcs : List (List Char)) (i : Nat) : Option Bytes :=
  match attemptedText tcs i with
  | none => none
  | some ct => synth i ct

/-- One chunk promise of the dispatch batch: look up the chunk text (a
missing or empty text throws inside the `try`), synthesize, store the chunk
artifact, then update the metadata record; every failure is caught and
returned as an unsuccessful `ChunkResult`.  Note the artifact write precedes
the metadata update, so a metadata failure can leave a stored but unrecorded
artifact. -/
def processChunk (synth : SynthOracle) (tcs : List (List Char)) (b : Bucket) (i : Nat) :
    Bucket × ChunkResult :=
  match attemptedText tcs i with
  | none => (b, ⟨i, false, none, none⟩)
  | some ct =>
    match synth i ct with
    | none => (b, ⟨i, false, none, some ct⟩)
    | some bytes =>
      match updateChunkMetadataE (storeAudioChunk b i bytes) i bytes.length with
      | .error _ => (storeAudioChunk b i bytes, ⟨i, false, none, some ct⟩)
      | .ok (b2, _) => (b2, ⟨i, true, some bytes, some ct⟩)

/-- The dispatch batch (`missingChunks.map` + `Promise.allSettled`),
sequentially linearized: chunk promises are processed in dispatch order,
and every outcome — success or failure — is collected.  The promises
actually run concurrently; their await-granularity interleavings are
modelled by `runSched` below, and the two differ observably: the
`updateChunkMetadata` read-modify-writes can race and lose a completion
mark (`batch_lost_update_counterexample`), which no linearization
exhibits. -/
def processBatch (synth : SynthOracle) (tcs : List (List Char)) :
    Bucket → List Nat → Bucket × List ChunkResult
  | b, [] => (b, [])
  | b, i :: rest =>
    ((processBatch synth tcs (processChunk synth tcs b i).1 rest).1,
     (processChunk synth tcs b i).2
       :: (processBatch synth tcs (processChunk synth tcs b i).1 rest).2)

/-- The `targetIndices` computation of `generateAudioResilient`: the status
report's missing indices, or — when that list is empty — every index of the
fresh split. -/
def genDispatchList (status : AudioChunkStatus) (tcs : List (List Char)) : List Nat :=
  if status.missingChunks.isEmpty then List.range tcs.length else status.missingChunks

/-- The metadata-initialization guard: `initializeAudioMetadata` runs only
when the status report shows no existing metadata (`totalChunks === 0`). -/
def genAfterInit (status : AudioChunkStatus) (b : Bucket) (tcs : List (List Char)) : Bucket :=
  if status.totalChunks = 0 then (initializeAudioMetadata b tcs).1 else b

/-- The value returned by `generateAudioResilient`, plus the instrumented
trace of the dispatched batch (empty on the complete-audio early return). -/
structure GenResult where
  audio : Option Bytes
  isComplete : Bool
  availableChunks : List Nat
  missingChunks : List Nat
  totalChunks : Nat
  trace : List ChunkResult
deriving DecidableEq

/-- Stage of the non-early path: the bucket after the conditional
`initializeAudioMetadata` call. -/
def genB1 (text : List Char) (b : Bucket) : Bucket :=
  genAfterInit (getAudioChunkStatus b) b (splitTextIntoChunks text)

/-- Stage of the non-early path: the `targetIndices` actually dispatched. -/
def genMissing (text : List Char) (b : Bucket) : List Nat :=
  genDispatchList (getAudioChunkStatus b) (splitTextIntoChunks text)

/-- Stage of the non-early path: the bucket after the dispatch batch. -/
def genB2 (synth : SynthOracle) (text : List Char) (b : Bucket) : Bucket :=
  (processBatch synth (splitTextIntoChunks text) (genB1 text b) (genMissing text b)).1

/-- Stage of the non-early path: the settled batch results. -/
def genResults (synth : SynthOracle) (text : List Char) (b : Bucket) : List ChunkResult :=
  (processBatch synth (splitTextIntoChunks text) (genB1 text b) (genMissing text b)).2

/-- Stage of the non-early path: the status re-check after the batch. -/
def genUpdated (synth : SynthOracle) (text : List Char) (b : Bucket) : AudioChunkStatus :=
  getAudioChunkStatus (genB2 synth text b)

/-- The non-early path of `generateAudioResilient`: unconditional re-split
of the caller's text, metadata initialization only when absent, dispatch of
the missing indices, settle-all batch, status re-check, finalization when
everything is now present. -/
def genRun (synth : SynthOracle) (text : List Char) (b : Bucket) :
    Bucket × GenResult :=
  (if (genUpdated synth text b).isComplete
      && (genUpdated synth text b).availableAudio.isSome then
     storeCompleteAudio (genB2 synth text b)
       ((genUpdated synth text b).availableAudio.getD [])
   else genB2 synth text b,
   ⟨(genUpdated synth text b).availableAudio, (genUpdated synth text b).isComplete,
    (genUpdated synth text b).availableChunks, (genUpdated synth text b).missingChunks,
    (genUpdated synth text b).totalChunks, genResults synth text b⟩)

/-- `generateAudioResilient`: status check with early return on complete
audio, otherwise the `genRun` pipeline. -/
def generateAudioResilient (synth : SynthOracle) (text : List Char) (b : Bucket) :
    Bucket × GenResult :=
  if (getAudioChunkStatus b).isComplete && (getAudioChunkStatus b).availableAudio.isSome then
    (b, ⟨(getAudioChunkStatus b).availableAudio, true,
         (getAudioChunkStatus b).availableChunks, [],
         (getAudioChunkStatus b).totalChunks, []⟩)
  else genRun synth text b

/-! ## HTTP surface (`src/app/api/audio/[...slug]/route.ts`) -/

/-- The responses the audio route can produce on the generation path:
a served audio body (status 200 or 206 with chunk-count headers), or the
hard-failure JSON diagnostic mapped to HTTP 500. -/
inductive RouteOutcome where
  | audio (status : Nat) (body : Bytes) (totalChunks : Nat)
      (availableCount : Nat) (missingChunks : List Nat) : RouteOutcome
  | failure500 (totalChunks : Nat) (failedChunks : List Nat)
      (successfulChunks : List Nat) : RouteOutcome
deriving DecidableEq

/-- Whether the outcome is the hard-failure diagnostic (HTTP 500). -/
def RouteOutcome.isHardFailure : RouteOutcome → Bool
  | .failure500 _ _ _ => true
  | _ => false

/-- The mapping from a generation result to the route's response
(`route.ts` lines 110–169): `null` audio becomes the 500 diagnostic
(counts, failed chunk list); otherwise the body is served with 200 when
complete and 206 (partial content) otherwise. -/
def routeRespond (r : GenResult) : RouteOutcome :=
  match r.audio with
  | none => .failure500 r.totalChunks r.missingChunks r.availableChunks
  | some body =>
    .audio (if r.isComplete then 200 else 206) body r.totalChunks
      r.availableChunks.length r.missingChunks

/-- The audio route `GET`, on the generation path (the article is assumed
present with extracted text `text`; the `raw.html`/`article.json` plumbing is
out of the claims' scope): serve `audio.mp3` directly when present, serve a
complete chunk assembly, otherwise run the resilient generation and map its
result.  The route's top-level `catch` is not reached in this model except
through a rejected `audio.mp3` read, which it maps to a 500 diagnostic. -/
def audioGET (synth : SynthOracle) (text : List Char) (b : Bucket) :
    Bucket × RouteOutcome :=
  match b.complete with
  | .throwErr => (b, .failure500 0 [] [])
  | .found bytes => (b, .audio 200 bytes 1 1 [])
  | .absent =>
    if (getAudioChunkStatus b).isComplete && (getAudioChunkStatus b).availableAudio.isSome then
      (b, .audio 200 ((getAudioChunkStatus b).availableAudio.getD [])
            (getAudioChunkStatus b).totalChunks
            (getAudioChunkStatus b).availableChunks.length [])
    else
      ((generateAudioResilient synth text b).1,
       routeRespond (generateAudioResilient synth text b).2)

/-! ## Derived notions used by the theorems -/

/-- The bytes stored for chunk `i`, when its artifact is present. -/
def chunkBytes (b : Bucket) (i : Nat) : Option Bytes :=
  match b.chunk i with
  | .found bs => some bs
  | _ => none

/-- Whether chunk `i`'s artifact is present in storage. -/
def presentIdx (b : Bucket) (i : Nat) : Bool :=
  (chunkBytes b i).isSome

/-- The contiguous run of present chunk indices starting at 0. -/
def contigRun (b : Bucket) (n : Nat) : List Nat :=
  (List.range n).takeWhile (presentIdx b)

/-- Text containing no terminal punctuation at all (the regex finds no
match and the whole text is one trailing sentence). -/
def noTerminal (t : List Char) : Bool :=
  t.all (fun c => !terminalChar c)

/-- Text ending in terminal punctuation. -/
def endsTerm (t : List Char) : Bool :=
  match t.getLast? with
  | some d => terminalChar d
  | none => false

/-- Text whose first character is not terminal punctuation and whose last
character is: the sentence regex consumes such a text completely. -/
def wellDelimited (t : List Char) : Bool :=
  match t.head? with
  | some a => !terminalChar a && endsTerm t
  | none => false

/-! ## C9: `initializeAudioMetadata` and existing metadata -/

/-- Concrete scenario for C9: metadata for two chunks already exists. -/
def mdC9 : AudioChunkMetadata :=
  ⟨2, [], [some 0, some 0], [['a'], ['b']]⟩

/-- Bucket holding `mdC9` and nothing else. -/
def bC9 : Bucket :=
  ⟨.absent, .found (some mdC9), fun _ => .absent⟩

/-- C9 counterexample: `initializeAudioMetadata` on an article whose
existing metadata has `totalChunks = 2`, called with a 1-chunk split, does
not fail and does not leave the record unchanged: it silently overwrites the
record with a fresh 1-chunk one. -/
theorem init_overwrites_counterexample :
    bC9.metadata = .found (some mdC9) ∧
    mdC9.totalChunks = 2 ∧
    ((initializeAudioMetadata bC9 [['c']]).1).metadata
      = .found (some ⟨1, [], [some 0], [['c']]⟩) ∧
    ((initializeAudioMetadata bC9 [['c']]).1).metadata ≠ .found (some mdC9) := by
  refine ⟨rfl, rfl, rfl, ?_⟩
  decide

/-- C9 (amended): `initializeAudioMetadata` performs no existence or
consistency check at all: for every bucket, existing record or not, it
unconditionally overwrites the metadata key with a fresh record for the new
split (`totalChunks` = the new split's length, no completed chunks, the new
`textChunks`). -/
theorem init_unconditional_overwrite (b : Bucket) (tcs : List (List Char)) :
    ((initializeAudioMetadata b tcs).1).metadata
      = .found (some (initializeAudioMetadata b tcs).2) ∧
    (initializeAudioMetadata b tcs).2.totalChunks = tcs.length ∧
    (initializeAudioMetadata b tcs).2.completedChunks = [] ∧
    (initializeAudioMetadata b tcs).2.textChunks = tcs := by
  exact ⟨rfl, rfl, rfl, rfl⟩

/-! ## C10: total behaviour of `getAudioChunkStatus` under storage faults -/

/-- C10: `getAudioChunkStatus` is total over storage faults: whenever its
body aborts (a rejected storage read or a metadata `JSON.parse` failure),
the `catch` arm returns exactly the never-started shape, which is the same
value returned for a bucket with no complete audio and no metadata record —
the fault is indistinguishable from absent metadata for every caller. -/
theorem status_total_on_faults (b : Bucket)
    (h : getAudioChunkStatusE b = .error ()) :
    getAudioChunkStatus b = ⟨false, [], [], 0, none⟩ ∧
    getAudioChunkStatus ⟨.absent, .absent, b.chunk⟩ = ⟨false, [], [], 0, none⟩ := by
  constructor
  · unfold getAudioChunkStatus
    rw [h]
  · rfl

/-- C10 witness: a bucket whose metadata read rejects. -/
theorem status_total_on_faults_witness :
    getAudioChunkStatusE ⟨.absent, .throwErr, fun _ => .absent⟩ = .error () ∧
    getAudioChunkStatus ⟨.absent, .throwErr, fun _ => .absent⟩ = ⟨false, [], [], 0, none⟩ := by
  exact ⟨rfl, (status_total_on_faults ⟨.absent, .throwErr, fun _ => .absent⟩ rfl).1⟩

/-! ## C1: dispatch policy of `generateAudioResilient` -/

/-- Concrete scenario for C1: metadata for nine chunks, chunks 0, 1, 4 and 6
present, so the missing indices are exactly {2, 3, 5, 7, 8}. -/
def bC1 : Bucket :=
  ⟨.absent,
   .found (some ⟨9, [0, 1, 4, 6], List.replicate 9 (some 0), []⟩),
   fun i => if [0, 1, 4, 6].contains i then .found [0] else .absent⟩

/-- C1: with missing indices {2, 3, 5, 7, 8}, `generateAudioResilient`
dispatches synthesis for all five of them — not the bounded batch {2, 3, 5}
of at most K = 3 lowest indices that the claim (and the repository's
"Prioritize early chunks" decision note) describes. -/
theorem dispatch_all_missing_at_input :
    (getAudioChunkStatus bC1).missingChunks = [2, 3, 5, 7, 8] ∧
    ((generateAudioResilient (fun _ _ => none) [] bC1).2).trace.map (fun r => r.chunkIndex)
      = [2, 3, 5, 7, 8] ∧
    ((generateAudioResilient (fun _ _ => none) [] bC1).2).trace.map (fun r => r.chunkIndex)
      ≠ [2, 3, 5] ∧
    3 < ((generateAudioResilient (fun _ _ => none) [] bC1).2).trace.length := by
  refine ⟨by decide, by decide, by decide, by decide⟩

/-! ## C5: chunking completeness -/

theorem stripWs_append (a b : List Char) : stripWs (a ++ b) = stripWs a ++ stripWs b := by
  simp [stripWs]

theorem stripWs_dropWhileWs (l : List Char) : stripWs (l.dropWhile isWs) = stripWs l := by
  induction l with
  | nil => rfl
  | cons c rest ih =>
    by_cases hc : isWs c = true
    · rw [List.dropWhile_cons_of_pos hc, ih]
      simp [stripWs, hc]
    · rw [List.dropWhile_cons_of_neg hc]

theorem stripWs_reverse (l : List Char) : stripWs l.reverse = (stripWs l).reverse :=
  List.filter_reverse _ l

theorem stripWs_trimWs (l : List Char) : stripWs (trimWs l) = stripWs l := by
  unfold trimWs
  rw [stripWs_reverse, stripWs_dropWhileWs, stripWs_reverse, stripWs_dropWhileWs,
    List.reverse_reverse]

theorem chunkLoop_stripWs (sents : List (List Char)) :
    ∀ cur, stripWs ((chunkLoop cur sents).flatten) = stripWs (cur ++ sents.flatten) := by
  induction sents with
  | nil =>
    intro cur
    by_cases hc : cur.isEmpty
    · rw [List.isEmpty_iff] at hc
      simp [chunkLoop, hc]
    · simp [chunkLoop, hc, stripWs_trimWs]
  | cons sent rest ih =>
    intro cur
    by_cases hlen : (cur ++ sent).length ≤ MAX_CHUNK_SIZE
    · rw [chunkLoop, if_pos hlen, ih]
      simp [List.append_assoc]
    · by_cases hc : cur.isEmpty
      · rw [List.isEmpty_iff] at hc
        rw [chunkLoop, if_neg hlen]
        simp [hc, ih]
      · rw [chunkLoop, if_neg hlen, if_neg hc]
        simp [List.flatten_cons, stripWs_append, stripWs_trimWs, ih, List.append_assoc]

theorem endsTerm_cons_of_ne (c : Char) {rest : List Char} (h : rest ≠ []) :
    endsTerm (c :: rest) = endsTerm rest := by
  cases rest with
  | nil => exact absurd rfl h
  | cons x xs =>
    unfold endsTerm
    rw [List.getLast?_cons_cons]

theorem sentStep_flatten_aux (s : List Char) :
    ∀ st : ScanState,
      (match st with
       | .body cur => cur ≠ [] ∧ endsTerm s = true
       | .punct _ _ => s = [] ∨ endsTerm s = true) →
      (sentStep s st).flatten
        = (match st with | .body cur => cur | .punct b p => b ++ p) ++ s := by
  induction s with
  | nil =>
    intro st h
    match st with
    | .body cur => exact absurd h.2 (by simp [endsTerm])
    | .punct b p => simp [sentStep]
  | cons c rest ih =>
    intro st h
    have hrest_ne : terminalChar c = false → rest ≠ [] := by
      intro hct hre
      match st with
      | .body cur =>
        rw [hre] at h
        simp [endsTerm, hct] at h
      | .punct b p =>
        rw [hre] at h
        rcases h with h | h
        · exact absurd h (by simp)
        · simp [endsTerm, hct] at h
    have hend : rest ≠ [] → endsTerm rest = true := by
      intro hne
      match st with
      | .body cur => exact (endsTerm_cons_of_ne c hne).symm.trans h.2
      | .punct b p =>
        rcases h with h | h
        · exact absurd h (by simp)
        · exact (endsTerm_cons_of_ne c hne).symm.trans h
    match st with
    | .body cur =>
      obtain ⟨hcur, _⟩ : cur ≠ [] ∧ endsTerm (c :: rest) = true := h
      by_cases hc : terminalChar c = true
      · have hce : cur.isEmpty = false := by
          cases cur with
          | nil => exact absurd rfl hcur
          | cons y ys => rfl
        rw [sentStep, hc, if_pos rfl, hce]
        simp only [Bool.false_eq_true, if_false]
        have hpre : rest = [] ∨ endsTerm rest = true := by
          by_cases hre : rest = []
          · exact Or.inl hre
          · exact Or.inr (hend hre)
        rw [ih (.punct cur [c]) hpre]
        simp
      · have hc' : terminalChar c = false := by simpa using hc
        rw [sentStep, hc']
        simp only [Bool.false_eq_true, if_false]
        have hne := hrest_ne hc'
        rw [ih (.body (cur ++ [c])) ⟨by simp, hend hne⟩]
        simp
    | .punct b p =>
      by_cases hc : terminalChar c = true
      · rw [sentStep, hc, if_pos rfl]
        have hpre : rest = [] ∨ endsTerm rest = true := by
          by_cases hre : rest = []
          · exact Or.inl hre
          · exact Or.inr (hend hre)
        rw [ih (.punct b (p ++ [c])) hpre]
        simp
      · have hc' : terminalChar c = false := by simpa using hc
        rw [sentStep, hc']
        simp only [Bool.false_eq_true, if_false, List.flatten_cons]
        have hne := hrest_ne hc'
        rw [ih (.body [c]) ⟨by simp, hend hne⟩]
        simp

theorem sentScan_flatten_of_wellDelimited {t : List Char} (h : wellDelimited t = true) :
    (sentScan t).flatten = t := by
  match t with
  | [] => simp [wellDelimited] at h
  | c :: rest =>
    have hc : terminalChar c = false := by
      unfold wellDelimited at h
      simp only [List.head?_cons, Bool.and_eq_true, Bool.not_eq_true'] at h
      exact h.1
    have hendt : endsTerm (c :: rest) = true := by
      unfold wellDelimited at h
      simp only [List.head?_cons, Bool.and_eq_true] at h
      exact h.2
    have hne : rest ≠ [] := by
      intro hre
      rw [hre] at hendt
      simp [endsTerm, hc] at hendt
    unfold sentScan
    rw [sentStep, hc]
    simp only [Bool.false_eq_true, if_false, List.nil_append]
    rw [sentStep_flatten_aux rest (.body [c])
      ⟨by simp, (endsTerm_cons_of_ne c hne).symm.trans hendt⟩]
    rfl

theorem sentStep_nil_of_noTerminal {s : List Char} (h : noTerminal s = true) :
    ∀ cur, sentStep s (.body cur) = [] := by
  induction s with
  | nil => intro cur; rfl
  | cons c rest ih =>
    intro cur
    have hc : terminalChar c = false := by
      unfold noTerminal at h
      simp only [List.all_cons, Bool.and_eq_true, Bool.not_eq_true'] at h
      exact h.1
    have hr : noTerminal rest = true := by
      unfold noTerminal at h ⊢
      simp only [List.all_cons, Bool.and_eq_true] at h
      exact h.2
    rw [sentStep, hc]
    simp only [Bool.false_eq_true, if_false]
    exact ih hr _

/-- Concrete counterexample input for C5: text with a sentence followed by a
trailing run that never meets terminal punctuation. -/
def tC5 : List Char := "a. b".toList

/-- C5 counterexample: for the input `"a. b"` the split is `["a."]`: the
trailing run `" b"` (no following terminal punctuation) is NOT treated as a
trailing sentence — it is silently dropped, so concatenating the chunks does
not reproduce the input's sentences even up to whitespace. -/
theorem chunking_drops_trailing_run :
    splitTextIntoChunks tC5 = [['a', '.']] ∧
    stripWs ((splitTextIntoChunks tC5).flatten) ≠ stripWs tC5 ∧
    'b' ∈ tC5 ∧ 'b' ∉ (splitTextIntoChunks tC5).flatten := by
  refine ⟨by decide, by decide, by decide, by decide⟩

/-- C5 (amended): splitting is complete — concatenating the returned chunks
reproduces the input up to whitespace — for every text that either contains
no terminal punctuation at all (then the whole text is the single trailing
sentence, via the `|| [text]` fallback) or starts with a non-terminal
character and ends with terminal punctuation.  A trailing run after a
matched sentence (and likewise a leading run of terminal punctuation) is
dropped, as the counterexample shows. -/
theorem chunking_complete_of_wellDelimited (t : List Char)
    (h : noTerminal t = true ∨ wellDelimited t = true) :
    stripWs ((splitTextIntoChunks t).flatten) = stripWs t := by
  rcases h with h | h
  · have hscan : sentScan t = [] := sentStep_nil_of_noTerminal h []
    have hm : matchSentences t = [t] := by
      unfold matchSentences
      rw [hscan]
      simp
    unfold splitTextIntoChunks
    rw [hm, chunkLoop_stripWs]
    simp
  · have hflat := sentScan_flatten_of_wellDelimited h
    have htne : t ≠ [] := by
      intro hte
      rw [hte] at h
      simp [wellDelimited] at h
    have hscan_ne : (sentScan t).isEmpty = false := by
      cases hs : sentScan t with
      | nil =>
        rw [hs] at hflat
        exact absurd hflat.symm htne
      | cons x xs => rfl
    have hm : matchSentences t = sentScan t := by
      unfold matchSentences
      simp [hscan_ne]
    unfold splitTextIntoChunks
    rw [hm, chunkLoop_stripWs, List.nil_append, hflat]

/-- C5 witness: a concrete well-delimited text on which the amended
completeness theorem applies. -/
theorem chunking_complete_witness :
    (noTerminal "Hi there. Bye!".toList = true ∨ wellDelimited "Hi there. Bye!".toList = true) ∧
    stripWs ((splitTextIntoChunks "Hi there. Bye!".toList).flatten)
      = stripWs "Hi there. Bye!".toList :=
  ⟨Or.inr (by decide),
   chunking_complete_of_wellDelimited "Hi there. Bye!".toList (Or.inr (by decide))⟩

/-! ## C8: idempotence of `updateChunkMetadata` -/

theorem setIdem {α : Type} (l : List α) (i : Nat) (v : α) (h : l[i]? = some v) :
    l.set i v = l := by
  induction l generalizing i with
  | nil => simp at h
  | cons a t ih =>
    cases i with
    | zero =>
      simp at h
      simp [h]
    | succ n =>
      simp at h ⊢
      exact ih n h

theorem setChunkSize_get (l : List (Option Nat)) (i v : Nat) :
    (setChunkSize l i v)[i]? = some (some v) := by
  unfold setChunkSize
  by_cases hi : i < l.length
  · rw [if_pos hi]
    simpa using List.getElem?_set_eq_of_lt (some v) hi
  · rw [if_neg hi]
    push_neg at hi
    rw [List.append_assoc, List.getElem?_append_right hi]
    rw [List.getElem?_append_right
      (by simp : (List.replicate (i - l.length) (none : Option Nat)).length ≤ i - l.length)]
    simp

theorem setChunkSize_len (l : List (Option Nat)) (i v : Nat) :
    i < (setChunkSize l i v).length := by
  unfold setChunkSize
  by_cases hi : i < l.length
  · simpa [if_pos hi] using hi
  · rw [if_neg hi]
    push_neg at hi
    simp
    omega

theorem setChunkSize_idem (l : List (Option Nat)) (i v : Nat) :
    setChunkSize (setChunkSize l i v) i v = setChunkSize l i v := by
  have h1 : setChunkSize (setChunkSize l i v) i v
      = if i < (setChunkSize l i v).length then (setChunkSize l i v).set i (some v)
        else (setChunkSize l i v)
          ++ List.replicate (i - (setChunkSize l i v).length) none ++ [some v] := rfl
  rw [h1, if_pos (setChunkSize_len l i v)]
  exact setIdem _ i (some v) (setChunkSize_get l i v)

theorem updateChunkMetadataE_found (b : Bucket) (md : AudioChunkMetadata) (i s : Nat)
    (hm : b.metadata = .found (some md)) :
    updateChunkMetadataE b i s
      = .ok (storeAudioMetadata b (updMeta md i s), updMeta md i s) := by
  unfold updateChunkMetadataE
  rw [hm]

/-- C8: `updateChunkMetadata` is idempotent on the completed set.  For every
bucket holding a duplicate-free metadata record and any chunk index and
size: the call succeeds, the resulting record's `completedChunks` contains
the index exactly once, `chunkSizes[index]` is the reported size, and a
second call with the same arguments succeeds and returns the very same
record (a no-op for `completedChunks` and `chunkSizes`). -/
theorem updateChunkMetadata_idempotent (b : Bucket) (md : AudioChunkMetadata)
    (i size : Nat) (hm : b.metadata = .found (some md))
    (hnd : md.completedChunks.Nodup) :
    ∃ b1, updateChunkMetadataE b i size = .ok (b1, updMeta md i size) ∧
      (updMeta md i size).completedChunks.count i = 1 ∧
      (updMeta md i size).chunkSizes[i]? = some (some size) ∧
      updateChunkMetadataE b1 i size = .ok (storeAudioMetadata b1 (updMeta md i size), updMeta md i size) := by
  have hupd := updateChunkMetadataE_found b md i size hm
  have hmem : i ∈ (updMeta md i size).completedChunks := by
    show i ∈ (if i ∈ md.completedChunks then md.completedChunks
      else (md.completedChunks ++ [i]).insertionSort (· ≤ ·))
    by_cases hin : i ∈ md.completedChunks
    · rw [if_pos hin]
      exact hin
    · rw [if_neg hin]
      rw [List.mem_insertionSort]
      simp
  have hcount : (updMeta md i size).completedChunks.count i = 1 := by
    show (if i ∈ md.completedChunks then md.completedChunks
      else (md.completedChunks ++ [i]).insertionSort (· ≤ ·)).count i = 1
    by_cases hin : i ∈ md.completedChunks
    · rw [if_pos hin]
      exact List.count_eq_one_of_mem hnd hin
    · rw [if_neg hin]
      rw [(List.perm_insertionSort (· ≤ ·) (md.completedChunks ++ [i])).count_eq i]
      rw [List.count_append]
      rw [List.count_eq_zero.mpr hin]
      simp
  have hsize : (updMeta md i size).chunkSizes[i]? = some (some size) :=
    setChunkSize_get md.chunkSizes i size
  have hsecond_md : updMeta (updMeta md i size) i size = updMeta md i size := by
    have h1 : updMeta (updMeta md i size) i size
        = ⟨(updMeta md i size).totalChunks,
           if i ∈ (updMeta md i size).completedChunks then (updMeta md i size).completedChunks
           else ((updMeta md i size).completedChunks ++ [i]).insertionSort (· ≤ ·),
           setChunkSize (updMeta md i size).chunkSizes i size,
           (updMeta md i size).textChunks⟩ := rfl
    rw [h1, if_pos hmem]
    have h2 : setChunkSize (updMeta md i size).chunkSizes i size
        = (updMeta md i size).chunkSizes := by
      show setChunkSize (setChunkSize md.chunkSizes i size) i size
          = setChunkSize md.chunkSizes i size
      exact setChunkSize_idem md.chunkSizes i size
    rw [h2]
  refine ⟨storeAudioMetadata b (updMeta md i size), hupd, hcount, hsize, ?_⟩
  have h3 := updateChunkMetadataE_found (storeAudioMetadata b (updMeta md i size))
    (updMeta md i size) i size rfl
  rw [hsecond_md] at h3
  exact h3

/-- C8 witness: a concrete bucket with a one-chunk metadata record. -/
theorem updateChunkMetadata_idempotent_witness :
    (Bucket.mk .absent (.found (some ⟨1, [], [some 0], [['x']]⟩)) (fun _ => .absent)).metadata
      = .found (some ⟨1, [], [some 0], [['x']]⟩) ∧
    ([] : List Nat).Nodup ∧
    (∃ b1, updateChunkMetadataE
        (Bucket.mk .absent (.found (some ⟨1, [], [some 0], [['x']]⟩)) (fun _ => .absent)) 0 5
        = .ok (b1, updMeta ⟨1, [], [some 0], [['x']]⟩ 0 5) ∧
      (updMeta ⟨1, [], [some 0], [['x']]⟩ 0 5).completedChunks.count 0 = 1 ∧
      (updMeta ⟨1, [], [some 0], [['x']]⟩ 0 5).chunkSizes[0]? = some (some 5) ∧
      updateChunkMetadataE b1 0 5
        = .ok (storeAudioMetadata b1 (updMeta ⟨1, [], [some 0], [['x']]⟩ 0 5),
               updMeta ⟨1, [], [some 0], [['x']]⟩ 0 5)) :=
  ⟨rfl, by decide,
   updateChunkMetadata_idempotent
     (Bucket.mk .absent (.found (some ⟨1, [], [some 0], [['x']]⟩)) (fun _ => .absent))
     ⟨1, [], [some 0], [['x']]⟩ 0 5 rfl (by decide)⟩

/-! ## C7: idempotent finalization (`storeCompleteAudio`) -/

theorem getAudioMetadata_of_found {b : Bucket} {md : AudioChunkMetadata}
    (hm : b.metadata = .found (some md)) : getAudioMetadata b = some md := by
  unfold getAudioMetadata
  rw [hm]

theorem storeCompleteAudio_of_none (b : Bucket) (bytes : Bytes)
    (h : getAudioMetadata b = none) :
    storeCompleteAudio b bytes = { b with complete := .found bytes } := by
  unfold storeCompleteAudio
  rw [h]

theorem storeCompleteAudio_of_found (b : Bucket) (bytes : Bytes) (md : AudioChunkMetadata)
    (h : getAudioMetadata b = some md) :
    storeCompleteAudio b bytes
      = ⟨.found bytes, .absent,
         fun i => if i < md.totalChunks then .absent else b.chunk i⟩ := by
  unfold storeCompleteAudio
  rw [h]

/-- C7: finalization is idempotent.  From any state reachable by a crash
between writing the Complete Artifact and (part of) the cleanup — metadata
still present with all chunk artifacts confined below `totalChunks`, or
metadata already gone and every chunk artifact already deleted — running
`storeCompleteAudio` completes and yields the terminal state (complete audio
present, no chunk artifacts, no metadata record), and running it once more
returns exactly the same state. -/
theorem storeCompleteAudio_idempotent (b : Bucket) (bytes : Bytes)
    (hcase : (∃ md, b.metadata = .found (some md) ∧
                ∀ i, md.totalChunks ≤ i → b.chunk i = .absent)
             ∨ (b.metadata = .absent ∧ ∀ i, b.chunk i = .absent)) :
    (storeCompleteAudio b bytes).complete = .found bytes ∧
    (storeCompleteAudio b bytes).metadata = .absent ∧
    (∀ i, (storeCompleteAudio b bytes).chunk i = .absent) ∧
    storeCompleteAudio (storeCompleteAudio b bytes) bytes = storeCompleteAudio b bytes := by
  rcases hcase with ⟨md, hm, habove⟩ | ⟨hm, hchunks⟩
  · have hsc := storeCompleteAudio_of_found b bytes md (getAudioMetadata_of_found hm)
    have hchunk' : ∀ i, (storeCompleteAudio b bytes).chunk i = .absent := by
      intro i
      rw [hsc]
      by_cases hi : i < md.totalChunks
      · simp [hi]
      · push_neg at hi
        simp only [if_neg (by omega : ¬ i < md.totalChunks)]
        exact habove i hi
    have habs : (storeCompleteAudio b bytes).metadata = .absent := by
      rw [hsc]
    have hcompl : (storeCompleteAudio b bytes).complete = .found bytes := by
      rw [hsc]
    refine ⟨hcompl, habs, hchunk', ?_⟩
    have hmeta2 : getAudioMetadata (storeCompleteAudio b bytes) = none := by
      unfold getAudioMetadata
      rw [habs]
    rw [storeCompleteAudio_of_none _ bytes hmeta2]
    apply Bucket.ext
    · exact hcompl.symm
    · rfl
    · rfl
  · have hsc := storeCompleteAudio_of_none b bytes (by unfold getAudioMetadata; rw [hm])
    have habs : (storeCompleteAudio b bytes).metadata = .absent := by
      rw [hsc]
      exact hm
    have hcompl : (storeCompleteAudio b bytes).complete = .found bytes := by
      rw [hsc]
    refine ⟨hcompl, habs, ?_, ?_⟩
    · intro i
      rw [hsc]
      exact hchunks i
    · have hmeta2 : getAudioMetadata (storeCompleteAudio b bytes) = none := by
        unfold getAudioMetadata
        rw [habs]
      rw [storeCompleteAudio_of_none _ bytes hmeta2]
      apply Bucket.ext
      · exact hcompl.symm
      · rfl
      · rfl

/-- C7 witness: complete audio already written, metadata and the single
chunk artifact not yet cleaned up. -/
theorem storeCompleteAudio_idempotent_witness :
    (∃ md, (Bucket.mk (.found [1]) (.found (some ⟨1, [0], [some 2], [['x']]⟩))
        (fun i => if i = 0 then .found [1] else .absent)).metadata = .found (some md) ∧
      ∀ i, md.totalChunks ≤ i →
        (Bucket.mk (.found [1]) (.found (some ⟨1, [0], [some 2], [['x']]⟩))
          (fun i => if i = 0 then .found [1] else .absent)).chunk i = .absent) ∧
    ((storeCompleteAudio (Bucket.mk (.found [1]) (.found (some ⟨1, [0], [some 2], [['x']]⟩))
        (fun i => if i = 0 then .found [1] else .absent)) [1]).complete = .found [1] ∧
     (storeCompleteAudio (Bucket.mk (.found [1]) (.found (some ⟨1, [0], [some 2], [['x']]⟩))
        (fun i => if i = 0 then .found [1] else .absent)) [1]).metadata = .absent ∧
     (∀ i, (storeCompleteAudio (Bucket.mk (.found [1]) (.found (some ⟨1, [0], [some 2], [['x']]⟩))
        (fun i => if i = 0 then .found [1] else .absent)) [1]).chunk i = .absent) ∧
     storeCompleteAudio (storeCompleteAudio (Bucket.mk (.found [1])
        (.found (some ⟨1, [0], [some 2], [['x']]⟩))
        (fun i => if i = 0 then .found [1] else .absent)) [1]) [1]
       = storeCompleteAudio (Bucket.mk (.found [1]) (.found (some ⟨1, [0], [some 2], [['x']]⟩))
        (fun i => if i = 0 then .found [1] else .absent)) [1]) :=
  ⟨⟨⟨1, [0], [some 2], [['x']]⟩, rfl, fun i hi => by
      have h1 : 1 ≤ i := hi
      show (if i = 0 then GetResult.found [1] else GetResult.absent) = GetResult.absent
      rw [if_neg (by omega : ¬ i = 0)]⟩,
   storeCompleteAudio_idempotent
     (Bucket.mk (.found [1]) (.found (some ⟨1, [0], [some 2], [['x']]⟩))
       (fun i => if i = 0 then .found [1] else .absent)) [1]
     (Or.inl ⟨⟨1, [0], [some 2], [['x']]⟩, rfl, fun i hi => by
       have h1 : 1 ≤ i := hi
       show (if i = 0 then GetResult.found [1] else GetResult.absent) = GetResult.absent
       rw [if_neg (by omega : ¬ i = 0)]⟩)⟩

/-! ## C4: contiguous-prefix assembly of `getAudioChunkStatus` -/

theorem reduceOption_map_filterMap {α β : Type} (f : α → Option β) (l : List α) :
    (l.map f).reduceOption = l.filterMap f := by
  induction l with
  | nil => rfl
  | cons a t ih =>
    cases ha : f a <;> simp [List.reduceOption, ha, ih, List.filterMap_cons]

theorem scanChunks_ok (b : Bucket) (l : List Nat)
    (h : ∀ i ∈ l, b.chunk i ≠ .throwErr) :
    scanChunks b l
      = .ok (l.map (chunkBytes b), l.filter (fun i => !presentIdx b i)) := by
  induction l with
  | nil => rfl
  | cons i rest ih =>
    have hi := h i (List.mem_cons_self i rest)
    have hrest : ∀ j ∈ rest, b.chunk j ≠ .throwErr :=
      fun j hj => h j (List.mem_cons_of_mem i hj)
    unfold scanChunks
    rw [ih hrest]
    cases hc : b.chunk i with
    | throwErr => exact absurd hc hi
    | absent =>
      have hp : presentIdx b i = false := by
        unfold presentIdx chunkBytes
        rw [hc]
        rfl
      have hcb : chunkBytes b i = none := by
        unfold chunkBytes
        rw [hc]
      simp [hp, hcb]
    | found bs =>
      have hp : presentIdx b i = true := by
        unfold presentIdx chunkBytes
        rw [hc]
        rfl
      have hcb : chunkBytes b i = some bs := by
        unfold chunkBytes
        rw [hc]
      simp [hp, hcb]

theorem takeWhile_stop {α : Type} (p : α → Bool) :
    ∀ (l : List α), (l.takeWhile p).length < l.length →
      ∀ a, l[(l.takeWhile p).length]? = some a → p a = false := by
  intro l
  induction l with
  | nil =>
    intro h
    simp at h
  | cons x t ih =>
    intro h a ha
    by_cases hp : p x = true
    · have hlen : ((x :: t).takeWhile p).length = (t.takeWhile p).length + 1 := by
        rw [List.takeWhile_cons_of_pos hp]
        rfl
      rw [hlen] at ha
      have ht : (t.takeWhile p).length < t.length := by
        rw [hlen] at h
        simpa using h
      exact ih ht a (by simpa using ha)
    · have hlen : ((x :: t).takeWhile p).length = 0 := by
        rw [List.takeWhile_cons_of_neg (by simpa using hp)]
        rfl
      rw [hlen] at ha
      have hax : a = x := by
        simpa using ha.symm
      rw [hax]
      simpa using hp

theorem contigRun_eq_range (b : Bucket) (n : Nat) :
    contigRun b n = List.range (contigRun b n).length := by
  have hpre : contigRun b n <+: List.range n := List.takeWhile_prefix _
  have hlen : (contigRun b n).length ≤ n := by
    have := hpre.length_le
    simpa using this
  have htake := List.prefix_iff_eq_take.mp hpre
  conv_lhs => rw [htake]
  rw [List.take_range, Nat.min_eq_left hlen]

theorem contigRun_length_le (b : Bucket) (n : Nat) : (contigRun b n).length ≤ n := by
  have := (List.takeWhile_prefix (p := presentIdx b) (l := List.range n)).length_le
  simpa [contigRun] using this

theorem contigRun_present (b : Bucket) (n : Nat) :
    ∀ i ∈ contigRun b n, presentIdx b i = true :=
  fun _ hi => List.mem_takeWhile_imp hi

theorem contigRun_stop (b : Bucket) (n : Nat)
    (h : (contigRun b n).length < n) :
    presentIdx b (contigRun b n).length = false := by
  have hlt : ((List.range n).takeWhile (presentIdx b)).length < (List.range n).length := by
    simpa [contigRun] using h
  have hget : (List.range n)[((List.range n).takeWhile (presentIdx b)).length]?
      = some ((List.range n).takeWhile (presentIdx b)).length := by
    rw [List.getElem?_range (by simpa using hlt)]
  exact takeWhile_stop (presentIdx b) (List.range n) hlt _ hget

theorem getAudioChunkStatus_of_md (b : Bucket) (md : AudioChunkMetadata)
    (hc : b.complete = .absent) (hm : b.metadata = .found (some md))
    (bufs : List (Option Bytes)) (miss : List Nat)
    (hscan : scanChunks b (List.range md.totalChunks) = .ok (bufs, miss)) :
    getAudioChunkStatus b = assembleStatus md bufs miss := by
  have hE : getAudioChunkStatusE b = .ok (assembleStatus md bufs miss) := by
    unfold getAudioChunkStatusE
    rw [hc, hm]
    show (match scanChunks b (List.range md.totalChunks) with
      | .error _ => (.error () : Except Unit AudioChunkStatus)
      | .ok (bufs, miss) => .ok (assembleStatus md bufs miss)) = _
    rw [hscan]
  unfold getAudioChunkStatus
  rw [hE]

/-- Concrete scenario for C4: metadata for one chunk with an empty
`completedChunks`, while the chunk artifact for index 0 is present in
storage (the write-then-mark gap). -/
def bC4 : Bucket :=
  ⟨.absent, .found (some ⟨1, [], [some 0], [['x']]⟩),
   fun i => if i = 0 then .found [9] else .absent⟩

/-- C4 counterexample: with `S = {0}` present in storage and
`totalChunks = 1`, the claim demands assembled audio equal to chunk 0 and
`availableChunks` reporting index 0; the code filters through
`completedChunks` (here empty), reports no available chunks, assembles
nothing — and still reports `isComplete = true` because no index is missing
from storage. -/
theorem assembly_counterexample_unrecorded_chunk :
    bC4.chunk 0 = .found [9] ∧
    getAudioChunkStatus bC4 = ⟨true, [], [], 1, none⟩ ∧
    (getAudioChunkStatus bC4).availableAudio ≠ some [9] ∧
    0 ∉ (getAudioChunkStatus bC4).availableChunks := by
  refine ⟨by decide, by decide, by decide, by decide⟩

/-- C4 (amended): the contiguity invariant holds for every consistent state,
i.e. whenever each present artifact below `totalChunks` is recorded in
`completedChunks` (and `completedChunks` stays below `totalChunks`): the
status reports `totalChunks` from the record, `availableChunks` is exactly
the set of present indices (also beyond the first gap), `missingChunks`
their complement below `totalChunks`, and the assembled audio is the
concatenation, in order, of exactly the chunks of the longest contiguous
present run `0..k-1` (absent when `k = 0`, i.e. when index 0 itself is
missing).  For states with a present but unrecorded artifact the claim
fails (see the counterexample). -/
theorem assembly_contiguous_prefix (b : Bucket) (md : AudioChunkMetadata)
    (hc : b.complete = .absent) (hm : b.metadata = .found (some md))
    (hnothrow : ∀ i ∈ List.range md.totalChunks, b.chunk i ≠ .throwErr)
    (hsub : ∀ i ∈ md.completedChunks, i < md.totalChunks)
    (hrec : ∀ i ∈ List.range md.totalChunks, presentIdx b i = true → i ∈ md.completedChunks) :
    (getAudioChunkStatus b).totalChunks = md.totalChunks ∧
    (∀ i, i ∈ (getAudioChunkStatus b).availableChunks
        ↔ (i < md.totalChunks ∧ presentIdx b i = true)) ∧
    (getAudioChunkStatus b).missingChunks
      = (List.range md.totalChunks).filter (fun i => !presentIdx b i) ∧
    ((contigRun b md.totalChunks).length = 0
      → (getAudioChunkStatus b).availableAudio = none) ∧
    (0 < (contigRun b md.totalChunks).length
      → (getAudioChunkStatus b).availableAudio
          = some (combineAudioChunks
              ((contigRun b md.totalChunks).filterMap (chunkBytes b)))) ∧
    (∀ i ∈ contigRun b md.totalChunks, presentIdx b i = true) ∧
    ((contigRun b md.totalChunks).length < md.totalChunks
      → presentIdx b (contigRun b md.totalChunks).length = false) ∧
    contigRun b md.totalChunks = List.range (contigRun b md.totalChunks).length := by
  have hscan := scanChunks_ok b (List.range md.totalChunks) hnothrow
  have hst := getAudioChunkStatus_of_md b md hc hm _ _ hscan
  set miss := (List.range md.totalChunks).filter (fun j => !presentIdx b j) with hmiss_def
  set avail := md.completedChunks.filter (fun c => !miss.contains c) with havail_def
  have hbufs : ((List.range md.totalChunks).map (chunkBytes b)).takeWhile Option.isSome
      = (contigRun b md.totalChunks).map (chunkBytes b) := by
    rw [List.takeWhile_map]
    rfl
  have hmiss_mem : ∀ i, i ∈ miss ↔ (i < md.totalChunks ∧ presentIdx b i = false) := by
    intro i
    rw [hmiss_def, List.mem_filter, List.mem_range]
    simp
  have havail_mem : ∀ i, i ∈ avail ↔ (i < md.totalChunks ∧ presentIdx b i = true) := by
    intro i
    rw [havail_def, List.mem_filter]
    constructor
    · rintro ⟨hin, hnc⟩
      have hilt := hsub i hin
      refine ⟨hilt, ?_⟩
      by_cases hp : presentIdx b i = true
      · exact hp
      · exfalso
        have hmem : i ∈ miss := (hmiss_mem i).mpr ⟨hilt, by simpa using hp⟩
        have : miss.contains i = true := List.elem_iff.mpr hmem
        rw [this] at hnc
        simp at hnc
    · rintro ⟨hilt, hp⟩
      refine ⟨hrec i (List.mem_range.mpr hilt) hp, ?_⟩
      have hnotmem : i ∉ miss := by
        intro hmem
        have := (hmiss_mem i).mp hmem
        rw [this.2] at hp
        exact Bool.false_ne_true hp
      have : miss.contains i = false := by
        cases hcontains : miss.contains i
        · rfl
        · exact absurd (List.elem_iff.mp hcontains) hnotmem
      rw [this]
      rfl
  have hstatus : getAudioChunkStatus b
      = ⟨miss.isEmpty, avail, miss, md.totalChunks,
         if avail.isEmpty then none
         else
           if ((((List.range md.totalChunks).map (chunkBytes b)).takeWhile
               Option.isSome).reduceOption).isEmpty then none
           else some (combineAudioChunks
             ((((List.range md.totalChunks).map (chunkBytes b)).takeWhile
               Option.isSome).reduceOption))⟩ := hst
  refine ⟨by rw [hstatus], fun i => by rw [hstatus]; exact havail_mem i, by rw [hstatus],
    ?_, ?_, contigRun_present b md.totalChunks, contigRun_stop b md.totalChunks,
    contigRun_eq_range b md.totalChunks⟩
  · intro hk
    have hcr : contigRun b md.totalChunks = [] := List.length_eq_zero.mp hk
    rw [hstatus]
    show (if avail.isEmpty then none
      else
        if ((((List.range md.totalChunks).map (chunkBytes b)).takeWhile
            Option.isSome).reduceOption).isEmpty then none
        else some (combineAudioChunks
          ((((List.range md.totalChunks).map (chunkBytes b)).takeWhile
            Option.isSome).reduceOption))) = none
    by_cases he : avail.isEmpty
    · rw [if_pos he]
    · rw [if_neg he, hbufs, hcr]
      simp [List.reduceOption]
  · intro hk
    have h0mem : 0 ∈ contigRun b md.totalChunks := by
      rw [contigRun_eq_range]
      exact List.mem_range.mpr hk
    have h0p : presentIdx b 0 = true := contigRun_present b md.totalChunks 0 h0mem
    have h0lt : 0 < md.totalChunks := by
      have := contigRun_length_le b md.totalChunks
      omega
    have h0avail : 0 ∈ avail := (havail_mem 0).mpr ⟨h0lt, h0p⟩
    have he : avail.isEmpty = false := by
      cases hl : avail with
      | nil =>
        rw [hl] at h0avail
        simp at h0avail
      | cons x xs => rfl
    rw [hstatus]
    show (if avail.isEmpty then none
      else
        if ((((List.range md.totalChunks).map (chunkBytes b)).takeWhile
            Option.isSome).reduceOption).isEmpty then none
        else some (combineAudioChunks
          ((((List.range md.totalChunks).map (chunkBytes b)).takeWhile
            Option.isSome).reduceOption)))
      = some (combineAudioChunks ((contigRun b md.totalChunks).filterMap (chunkBytes b)))
    rw [he]
    simp only [Bool.false_eq_true, if_false]
    rw [hbufs, reduceOption_map_filterMap]
    have hne : ((contigRun b md.totalChunks).filterMap (chunkBytes b)).isEmpty = false := by
      obtain ⟨bs, hbs⟩ : ∃ bs, chunkBytes b 0 = some bs := by
        unfold presentIdx at h0p
        cases hcb : chunkBytes b 0 with
        | none =>
          rw [hcb] at h0p
          simp at h0p
        | some bs => exact ⟨bs, rfl⟩
      have hmem : bs ∈ (contigRun b md.totalChunks).filterMap (chunkBytes b) :=
        List.mem_filterMap.mpr ⟨0, h0mem, hbs⟩
      cases hl : (contigRun b md.totalChunks).filterMap (chunkBytes b) with
      | nil =>
        rw [hl] at hmem
        simp at hmem
      | cons x xs => rfl
    rw [hne]
    simp

/-- Consistent metadata record for the C4 witness: two chunks, chunk 0
present and recorded, chunk 1 missing. -/
def mdC4w : AudioChunkMetadata := ⟨2, [0], [some 3, some 0], [['x'], ['y']]⟩

/-- Bucket for the C4 witness. -/
def bC4w : Bucket :=
  ⟨.absent, .found (some mdC4w), fun i => if i = 0 then .found [9] else .absent⟩

/-- C4 witness: the amended contiguity theorem applied to a concrete
consistent two-chunk state with only chunk 0 present. -/
theorem assembly_contiguous_prefix_witness :
    (bC4w.complete = .absent ∧ bC4w.metadata = .found (some mdC4w) ∧
     (∀ i ∈ List.range mdC4w.totalChunks, bC4w.chunk i ≠ .throwErr) ∧
     (∀ i ∈ mdC4w.completedChunks, i < mdC4w.totalChunks) ∧
     (∀ i ∈ List.range mdC4w.totalChunks, presentIdx bC4w i = true
        → i ∈ mdC4w.completedChunks)) ∧
    ((getAudioChunkStatus bC4w).totalChunks = mdC4w.totalChunks ∧
     (∀ i, i ∈ (getAudioChunkStatus bC4w).availableChunks
        ↔ (i < mdC4w.totalChunks ∧ presentIdx bC4w i = true)) ∧
     (getAudioChunkStatus bC4w).missingChunks
       = (List.range mdC4w.totalChunks).filter (fun i => !presentIdx bC4w i) ∧
     ((contigRun bC4w mdC4w.totalChunks).length = 0
       → (getAudioChunkStatus bC4w).availableAudio = none) ∧
     (0 < (contigRun bC4w mdC4w.totalChunks).length
       → (getAudioChunkStatus bC4w).availableAudio
           = some (combineAudioChunks
               ((contigRun bC4w mdC4w.totalChunks).filterMap (chunkBytes bC4w)))) ∧
     (∀ i ∈ contigRun bC4w mdC4w.totalChunks, presentIdx bC4w i = true) ∧
     ((contigRun bC4w mdC4w.totalChunks).length < mdC4w.totalChunks
       → presentIdx bC4w (contigRun bC4w mdC4w.totalChunks).length = false) ∧
     contigRun bC4w mdC4w.totalChunks
       = List.range (contigRun bC4w mdC4w.totalChunks).length) :=
  ⟨⟨rfl, rfl, by decide, by decide, by decide⟩,
   assembly_contiguous_prefix bC4w mdC4w rfl rfl (by decide) (by decide) (by decide)⟩

/-! ## C3: hard failure versus partial progress at the audio endpoint -/

/-- Metadata for the C3 counterexample: two chunks, chunk 1 completed and
persisted, chunk 0 missing. -/
def mdC3 : AudioChunkMetadata := ⟨2, [1], [some 0, some 3], [['x'], ['y']]⟩

/-- Bucket for the C3 counterexample: real progress exists (chunk 1 is
persisted), but chunk 0 — the head of the playable prefix — is missing. -/
def bC3 : Bucket :=
  ⟨.absent, .found (some mdC3), fun i => if i = 1 then .found [7] else .absent⟩

/-- C3 counterexample: with chunk 1 persisted (and reported available) but
chunk 0 missing and its synthesis failing, the endpoint returns the hard
500 failure even though a chunk artifact is persisted for the article —
because the assembled prefix is empty, not because zero chunks exist. -/
theorem hard_failure_with_persisted_chunk :
    bC3.chunk 1 = .found [7] ∧
    (getAudioChunkStatus bC3).availableChunks = [1] ∧
    (audioGET (fun _ _ => none) [] bC3).2 = .failure500 2 [0] [1] ∧
    ((audioGET (fun _ _ => none) [] bC3).2).isHardFailure = true := by
  refine ⟨by decide, by decide, by decide, by decide⟩

/-- C3 (amended): the endpoint's response is a hard failure (HTTP 500 with
diagnostic body) if and only if the generation result carries no assembled
audio — i.e. the contiguous prefix is empty.  An article can therefore hard
fail despite persisted progress, namely exactly when chunk 0 is not part of
an assemblable prefix (see the counterexample). -/
theorem hard_failure_iff_no_assembled_audio (synth : SynthOracle) (text : List Char)
    (b : Bucket) (hc : b.complete ≠ .throwErr) :
    ((audioGET synth text b).2).isHardFailure = true
      ↔ ((generateAudioResilient synth text b).2).audio = none := by
  cases hcc : b.complete with
  | throwErr => exact absurd hcc hc
  | found bytes =>
    have hstat : getAudioChunkStatus b = ⟨true, [], [], 1, some bytes⟩ := by
      unfold getAudioChunkStatus getAudioChunkStatusE
      rw [hcc]
    have hget : audioGET synth text b = (b, .audio 200 bytes 1 1 []) := by
      unfold audioGET
      rw [hcc]
    have hgen : generateAudioResilient synth text b
        = (b, ⟨some bytes, true, [], [], 1, []⟩) := by
      unfold generateAudioResilient
      rw [hstat]
      simp
    rw [hget, hgen]
    simp [RouteOutcome.isHardFailure]
  | absent =>
    cases hcond : ((getAudioChunkStatus b).isComplete
        && (getAudioChunkStatus b).availableAudio.isSome) with
    | true =>
      have hsome : (getAudioChunkStatus b).availableAudio.isSome = true := by
        have h := hcond
        simp only [Bool.and_eq_true] at h
        exact h.2
      have hget : (audioGET synth text b).2
          = .audio 200 ((getAudioChunkStatus b).availableAudio.getD [])
              (getAudioChunkStatus b).totalChunks
              (getAudioChunkStatus b).availableChunks.length [] := by
        unfold audioGET
        rw [hcc, hcond]
        rfl
      have hgen : (generateAudioResilient synth text b).2
          = ⟨(getAudioChunkStatus b).availableAudio, true,
             (getAudioChunkStatus b).availableChunks, [],
             (getAudioChunkStatus b).totalChunks, []⟩ := by
        unfold generateAudioResilient
        rw [hcond]
        rfl
      rw [hget, hgen]
      simp only [RouteOutcome.isHardFailure]
      constructor
      · intro hfalse
        exact absurd hfalse (by simp)
      · intro hnone
        rw [hnone] at hsome
        simp at hsome
    | false =>
      have hget : (audioGET synth text b).2
          = routeRespond (generateAudioResilient synth text b).2 := by
        unfold audioGET
        rw [hcc, hcond]
        rfl
      rw [hget]
      cases haud : ((generateAudioResilient synth text b).2).audio with
      | none =>
        unfold routeRespond
        rw [haud]
        simp [RouteOutcome.isHardFailure]
      | some body =>
        unfold routeRespond
        rw [haud]
        simp [RouteOutcome.isHardFailure]

/-- C3 witness: the amended iff applied to the concrete counterexample
state, where both sides hold. -/
theorem hard_failure_iff_witness :
    bC3.complete ≠ .throwErr ∧
    (((audioGET (fun _ _ => none) [] bC3).2).isHardFailure = true
      ↔ ((generateAudioResilient (fun _ _ => none) [] bC3).2).audio = none) :=
  ⟨by decide, hard_failure_iff_no_assembled_audio (fun _ _ => none) [] bC3 (by decide)⟩

/-! ## C2: dispatched chunk texts come from the fresh split, not metadata -/

/-- Metadata for the C2 counterexample, holding a stored chunk text that
differs from what the caller's text splits into. -/
def mdC2 : AudioChunkMetadata := ⟨1, [], [some 0], ["Stored.".toList]⟩

/-- Bucket for the C2 counterexample: metadata exists (so, per the claim,
dispatch should use its `textChunks`), chunk 0 missing. -/
def bC2 : Bucket := ⟨.absent, .found (some mdC2), fun _ => .absent⟩

/-- C2 counterexample: metadata exists with stored text `"Stored."`, yet the
dispatched synthesis call for chunk 0 is made with the fresh split of the
caller-supplied text `"Fresh."` — the stored `textChunks` are never read. -/
theorem resplit_counterexample :
    bC2.metadata = .found (some mdC2) ∧
    mdC2.textChunks = ["Stored.".toList] ∧
    ((generateAudioResilient (fun _ _ => some [1]) "Fresh.".toList bC2).2).trace
      = [⟨0, true, some [1], some "Fresh.".toList⟩] ∧
    some "Fresh.".toList ≠ (some "Stored.".toList : Option (List Char)) := by
  refine ⟨rfl, rfl, by decide, by decide⟩

theorem processChunk_fields (synth : SynthOracle) (tcs : List (List Char))
    (b : Bucket) (i : Nat) :
    (processChunk synth tcs b i).2.chunkIndex = i ∧
    (processChunk synth tcs b i).2.sentText = attemptedText tcs i := by
  unfold processChunk
  constructor <;> (repeat' split) <;> simp_all

theorem batch_sentText (synth : SynthOracle) (tcs : List (List Char)) :
    ∀ (idxs : List Nat) (b : Bucket) (r : ChunkResult),
      r ∈ (processBatch synth tcs b idxs).2
      → r.sentText = attemptedText tcs r.chunkIndex := by
  intro idxs
  induction idxs with
  | nil =>
    intro b r hr
    simp [processBatch] at hr
  | cons i rest ih =>
    intro b r hr
    unfold processBatch at hr
    rcases List.mem_cons.mp hr with hr | hr
    · rw [hr]
      rw [(processChunk_fields synth tcs b i).1, (processChunk_fields synth tcs b i).2]
    · exact ih _ r hr

/-- C2 (amended): `generateAudioResilient` always re-splits the
caller-supplied text and takes every dispatched chunk's synthesis text from
that fresh split (`splitTextIntoChunks text`), never from the metadata's
stored `textChunks`; only `initializeAudioMetadata` is guarded by the
absence of metadata (`status.totalChunks = 0`). -/
theorem dispatched_text_from_fresh_split (synth : SynthOracle) (text : List Char)
    (b : Bucket) (r : ChunkResult)
    (hr : r ∈ ((generateAudioResilient synth text b).2).trace) :
    r.sentText = attemptedText (splitTextIntoChunks text) r.chunkIndex ∧
    ((getAudioChunkStatus b).totalChunks ≠ 0
      → genAfterInit (getAudioChunkStatus b) b (splitTextIntoChunks text) = b) := by
  refine ⟨?_, fun hnz => by unfold genAfterInit; rw [if_neg hnz]⟩
  cases hcond : ((getAudioChunkStatus b).isComplete
      && (getAudioChunkStatus b).availableAudio.isSome) with
  | true =>
    have hgen : generateAudioResilient synth text b
        = (b, ⟨(getAudioChunkStatus b).availableAudio, true,
               (getAudioChunkStatus b).availableChunks, [],
               (getAudioChunkStatus b).totalChunks, []⟩) := by
      unfold generateAudioResilient
      rw [hcond]
      rfl
    rw [hgen] at hr
    simp at hr
  | false =>
    have hgen : generateAudioResilient synth text b = genRun synth text b := by
      unfold generateAudioResilient
      rw [hcond]
      rfl
    rw [hgen] at hr
    have htrace : ((genRun synth text b).2).trace
        = (processBatch synth (splitTextIntoChunks text)
            (genAfterInit (getAudioChunkStatus b) b (splitTextIntoChunks text))
            (genDispatchList (getAudioChunkStatus b) (splitTextIntoChunks text))).2 := rfl
    rw [htrace] at hr
    exact batch_sentText synth (splitTextIntoChunks text) _ _ r hr

/-- C2 witness: the amended theorem applied to the concrete counterexample
run. -/
theorem dispatched_text_witness :
    (⟨0, true, some [1], some "Fresh.".toList⟩ : ChunkResult)
      ∈ ((generateAudioResilient (fun _ _ => some [1]) "Fresh.".toList bC2).2).trace ∧
    ((⟨0, true, some [1], some "Fresh.".toList⟩ : ChunkResult).sentText
        = attemptedText (splitTextIntoChunks "Fresh.".toList)
            (⟨0, true, some [1], some "Fresh.".toList⟩ : ChunkResult).chunkIndex ∧
     ((getAudioChunkStatus bC2).totalChunks ≠ 0
        → genAfterInit (getAudioChunkStatus bC2) bC2 (splitTextIntoChunks "Fresh.".toList)
            = bC2)) :=
  ⟨by decide,
   dispatched_text_from_fresh_split (fun _ _ => some [1]) "Fresh.".toList bC2
     ⟨0, true, some [1], some "Fresh.".toList⟩ (by decide)⟩

/-! ## C6: partial-failure isolation of the dispatch batch -/

theorem updMeta_mem (md : AudioChunkMetadata) (i s j : Nat) :
    j ∈ (updMeta md i s).completedChunks ↔ (j ∈ md.completedChunks ∨ j = i) := by
  show j ∈ (if i ∈ md.completedChunks then md.completedChunks
    else (md.completedChunks ++ [i]).insertionSort (· ≤ ·)) ↔ _
  by_cases hin : i ∈ md.completedChunks
  · rw [if_pos hin]
    constructor
    · exact fun h => Or.inl h
    · rintro (h | h)
      · exact h
      · rw [h]
        exact hin
  · rw [if_neg hin, List.mem_insertionSort, List.mem_append, List.mem_singleton]

theorem processChunk_fail (synth : SynthOracle) (tcs : List (List Char))
    (b : Bucket) (i : Nat) (h : chunkAttempt synth tcs i = none) :
    processChunk synth tcs b i = (b, ⟨i, false, none, attemptedText tcs i⟩) := by
  unfold processChunk
  (repeat' split) <;> simp_all [chunkAttempt]

theorem updateChunkMetadataE_ok_inv (b : Bucket) (i s : Nat) (b2 : Bucket)
    (md2 : AudioChunkMetadata) (h : updateChunkMetadataE b i s = .ok (b2, md2)) :
    ∃ md0, b.metadata = .found (some md0) ∧ md2 = updMeta md0 i s
      ∧ b2 = storeAudioMetadata b md2 := by
  unfold updateChunkMetadataE at h
  cases hm : b.metadata with
  | throwErr =>
    rw [hm] at h
    simp at h
  | absent =>
    rw [hm] at h
    simp at h
  | found omd =>
    cases omd with
    | none =>
      rw [hm] at h
      simp at h
    | some md0 =>
      rw [hm] at h
      simp only [Except.ok.injEq, Prod.mk.injEq] at h
      exact ⟨md0, rfl, h.2.symm, by rw [← h.1, ← h.2]⟩

theorem processChunk_success (synth : SynthOracle) (tcs : List (List Char))
    (b : Bucket) (i : Nat) (md : AudioChunkMetadata)
    (hm : b.metadata = .found (some md))
    (h : (chunkAttempt synth tcs i).isSome = true) :
    processChunk synth tcs b i
      = (storeAudioMetadata (storeAudioChunk b i ((chunkAttempt synth tcs i).getD []))
           (updMeta md i ((chunkAttempt synth tcs i).getD []).length),
         ⟨i, true, chunkAttempt synth tcs i, attemptedText tcs i⟩) := by
  cases hat : attemptedText tcs i with
  | none =>
    rw [show chunkAttempt synth tcs i = none from by unfold chunkAttempt; rw [hat]] at h
    simp at h
  | some ct =>
    cases hs : synth i ct with
    | none =>
      rw [show chunkAttempt synth tcs i = none from by
        simp [chunkAttempt, hat, hs]] at h
      simp at h
    | some bytes =>
      have hca : chunkAttempt synth tcs i = some bytes := by
        simp [chunkAttempt, hat, hs]
      have hupd := updateChunkMetadataE_found (storeAudioChunk b i bytes) md i
        bytes.length hm
      rw [hca]
      unfold processChunk
      rw [hat]
      show (match synth i ct with
        | none => (b, (⟨i, false, none, some ct⟩ : ChunkResult))
        | some bytes =>
          match updateChunkMetadataE (storeAudioChunk b i bytes) i bytes.length with
          | .error _ =>
            (storeAudioChunk b i bytes, (⟨i, false, none, some ct⟩ : ChunkResult))
          | .ok (b2, _) => (b2, (⟨i, true, some bytes, some ct⟩ : ChunkResult))) = _
      rw [hs]
      show (match updateChunkMetadataE (storeAudioChunk b i bytes) i bytes.length with
        | .error _ =>
          (storeAudioChunk b i bytes, (⟨i, false, none, some ct⟩ : ChunkResult))
        | .ok (b2, _) => (b2, (⟨i, true, some bytes, some ct⟩ : ChunkResult))) = _
      rw [hupd]
      rfl

theorem processChunk_chunk_ne (synth : SynthOracle) (tcs : List (List Char))
    (b : Bucket) (j i : Nat) (hne : i ≠ j) :
    ((processChunk synth tcs b j).1).chunk i = b.chunk i := by
  unfold processChunk
  (repeat' split) <;> try simp [storeAudioMetadata, storeAudioChunk, hne]
  rename_i b2 snd heq
  obtain ⟨md0, hm0, hmd2, hb2⟩ := updateChunkMetadataE_ok_inv _ _ _ _ _ heq
  rw [hb2]
  simp [storeAudioMetadata, storeAudioChunk, hne]

theorem processChunk_complete (synth : SynthOracle) (tcs : List (List Char))
    (b : Bucket) (j : Nat) :
    ((processChunk synth tcs b j).1).complete = b.complete := by
  unfold processChunk
  (repeat' split) <;> try rfl
  rename_i b2 snd heq
  obtain ⟨md0, hm0, hmd2, hb2⟩ := updateChunkMetadataE_ok_inv _ _ _ _ _ heq
  rw [hb2]
  rfl

theorem processChunk_metadata (synth : SynthOracle) (tcs : List (List Char))
    (b : Bucket) (i : Nat) (md : AudioChunkMetadata)
    (hm : b.metadata = .found (some md)) :
    ∃ md₁, ((processChunk synth tcs b i).1).metadata = .found (some md₁)
      ∧ md₁.totalChunks = md.totalChunks
      ∧ (∀ j, j ∈ md.completedChunks → j ∈ md₁.completedChunks)
      ∧ (∀ j, j ∈ md₁.completedChunks → j ∈ md.completedChunks ∨ j = i) := by
  cases hca : chunkAttempt synth tcs i with
  | none =>
    refine ⟨md, ?_, rfl, fun j hj => hj, fun j hj => Or.inl hj⟩
    rw [processChunk_fail synth tcs b i hca]
    exact hm
  | some bytes =>
    refine ⟨updMeta md i bytes.length, ?_, rfl, ?_, ?_⟩
    · rw [processChunk_success synth tcs b i md hm (by rw [hca]; rfl)]
      rw [hca]
      rfl
    · intro j hj
      exact (updMeta_mem md i bytes.length j).mpr (Or.inl hj)
    · intro j hj
      exact (updMeta_mem md i bytes.length j).mp hj

theorem processBatch_chunk_not_mem (synth : SynthOracle) (tcs : List (List Char)) :
    ∀ (idxs : List Nat) (b : Bucket) (i : Nat), i ∉ idxs →
      ((processBatch synth tcs b idxs).1).chunk i = b.chunk i := by
  intro idxs
  induction idxs with
  | nil => intro b i _; rfl
  | cons j rest ih =>
    intro b i hi
    have hij : i ≠ j := fun he => hi (he ▸ List.mem_cons_self j rest)
    have hirest : i ∉ rest := fun hr => hi (List.mem_cons_of_mem j hr)
    show ((processBatch synth tcs (processChunk synth tcs b j).1 rest).1).chunk i = b.chunk i
    rw [ih _ i hirest]
    exact processChunk_chunk_ne synth tcs b j i hij

theorem processBatch_complete (synth : SynthOracle) (tcs : List (List Char)) :
    ∀ (idxs : List Nat) (b : Bucket),
      ((processBatch synth tcs b idxs).1).complete = b.complete := by
  intro idxs
  induction idxs with
  | nil => intro b; rfl
  | cons j rest ih =>
    intro b
    show ((processBatch synth tcs (processChunk synth tcs b j).1 rest).1).complete = b.complete
    rw [ih _]
    exact processChunk_complete synth tcs b j

theorem processBatch_chunk_success (synth : SynthOracle) (tcs : List (List Char)) :
    ∀ (idxs : List Nat) (b : Bucket) (md : AudioChunkMetadata),
      b.metadata = .found (some md) → idxs.Nodup →
      ∀ i ∈ idxs, (chunkAttempt synth tcs i).isSome = true →
        ((processBatch synth tcs b idxs).1).chunk i
          = .found ((chunkAttempt synth tcs i).getD []) := by
  intro idxs
  induction idxs with
  | nil =>
    intro b md _ _ i hi
    simp at hi
  | cons j rest ih =>
    intro b md hm hnd i hi hsucc
    have hjrest : j ∉ rest := (List.nodup_cons.mp hnd).1
    have hndrest : rest.Nodup := (List.nodup_cons.mp hnd).2
    rcases List.mem_cons.mp hi with hij | hirest
    · subst hij
      show ((processBatch synth tcs (processChunk synth tcs b i).1 rest).1).chunk i
          = .found ((chunkAttempt synth tcs i).getD [])
      rw [processBatch_chunk_not_mem synth tcs rest _ i hjrest]
      rw [processChunk_success synth tcs b i md hm hsucc]
      simp [storeAudioMetadata, storeAudioChunk]
    · obtain ⟨md₁, hm₁, _, _, _⟩ := processChunk_metadata synth tcs b j md hm
      show ((processBatch synth tcs (processChunk synth tcs b j).1 rest).1).chunk i
          = .found ((chunkAttempt synth tcs i).getD [])
      exact ih _ md₁ hm₁ hndrest i hirest hsucc

theorem processBatch_chunk_failed (synth : SynthOracle) (tcs : List (List Char)) :
    ∀ (idxs : List Nat) (b : Bucket) (md : AudioChunkMetadata),
      b.metadata = .found (some md) → idxs.Nodup →
      ∀ i ∈ idxs, chunkAttempt synth tcs i = none →
        ((processBatch synth tcs b idxs).1).chunk i = b.chunk i := by
  intro idxs
  induction idxs with
  | nil =>
    intro b md _ _ i hi
    simp at hi
  | cons j rest ih =>
    intro b md hm hnd i hi hfail
    have hjrest : j ∉ rest := (List.nodup_cons.mp hnd).1
    have hndrest : rest.Nodup := (List.nodup_cons.mp hnd).2
    rcases List.mem_cons.mp hi with hij | hirest
    · subst hij
      show ((processBatch synth tcs (processChunk synth tcs b i).1 rest).1).chunk i = b.chunk i
      rw [processBatch_chunk_not_mem synth tcs rest _ i hjrest]
      rw [processChunk_fail synth tcs b i hfail]
    · have hij : i ≠ j := fun he => hjrest (he ▸ hirest)
      obtain ⟨md₁, hm₁, _, _, _⟩ := processChunk_metadata synth tcs b j md hm
      show ((processBatch synth tcs (processChunk synth tcs b j).1 rest).1).chunk i = b.chunk i
      rw [ih _ md₁ hm₁ hndrest i hirest hfail]
      exact processChunk_chunk_ne synth tcs b j i hij

theorem processBatch_trace (synth : SynthOracle) (tcs : List (List Char)) :
    ∀ (idxs : List Nat) (b : Bucket),
      ((processBatch synth tcs b idxs).2).map (fun r => r.chunkIndex) = idxs := by
  intro idxs
  induction idxs with
  | nil => intro b; rfl
  | cons j rest ih =>
    intro b
    show ((processChunk synth tcs b j).2
        :: (processBatch synth tcs (processChunk synth tcs b j).1 rest).2).map
          (fun r => r.chunkIndex) = j :: rest
    rw [List.map_cons, (processChunk_fields synth tcs b j).1, ih]

end BlogAudio
